import Mathlib

/- Verification development for the exo_changelog schema-change engine:
   a shallow embedding of its dependency graph, loader, planner, executor,
   operations and recorder, with theorems checking the specification's
   statements against the code. -/

namespace Changelog

/-- A change is identified by the pair `(app_label, change_name)`;
`Change.__eq__` and `__hash__` in `change.py` (lines 41-56) compare exactly
this pair, so plan entries are represented by their keys. -/
abbrev Key := String × String

/-- Modelled from the spec: the module `exo_changelog/graph.py` (class
`ChangeGraph`) is missing from the sources; only its callers in `loader.py`
and `executor.py` are present.  Following spec section 4.1
("DependencyGraph": node set plus per-key parent/child adjacency), a graph
is a node list over `Key` and a directed edge list, an edge `(c, p)`
recording that change `c` depends on (has parent) `p`. -/
structure ChangeGraph where
  nodes : List Key
  edges : List (Key × Key)

/-- Modelled from the spec: children of a node, the keys that depend on it
(spec 4.1, child-set adjacency of `node_map`). -/
def childrenOf (g : ChangeGraph) (k : Key) : List Key :=
  (g.edges.filter (fun e => e.2 == k)).map (fun e => e.1)

/-- Modelled from the spec: parents of a node, the keys it depends on
(spec 4.1, parent-set adjacency of `node_map`). -/
def parentsOf (g : ChangeGraph) (k : Key) : List Key :=
  (g.edges.filter (fun e => e.1 == k)).map (fun e => e.2)

/-- Lexicographic comparison of keys, matching Python tuple ordering used
by `sorted(...)` in `executor.py` line 48. -/
def keyLe (a b : Key) : Bool :=
  decide (a.1 < b.1) || (a.1 == b.1 && decide (a.2 ≤ b.2))

/-- Insertion step of the key sort. -/
def insertKey (k : Key) : List Key → List Key
  | [] => [k]
  | x :: xs => if keyLe k x then k :: x :: xs else x :: insertKey k xs

/-- Insertion sort by lexicographic key order (spec 4.1: deterministic
lexicographic result order for graph queries; `sorted` in the executor). -/
def sortKeys : List Key → List Key
  | [] => []
  | x :: xs => insertKey x (sortKeys xs)

/-- Modelled from the spec: `leaf_nodes` are the keys with empty child-set,
in deterministic lexicographic order (spec 4.1). -/
def leaf_nodes (g : ChangeGraph) : List Key :=
  sortKeys (g.nodes.filter (fun k => (childrenOf g k).isEmpty))

/-- Modelled from the spec: `root_nodes` are the keys with empty
parent-set, in deterministic lexicographic order (spec 4.1). -/
def root_nodes (g : ChangeGraph) : List Key :=
  sortKeys (g.nodes.filter (fun k => (parentsOf g k).isEmpty))

/-- Modelled from the spec: fuelled depth-first traversal behind
`backwards_plan` (spec 4.1): descendants are emitted child-first, each node
after all of its descendants, children visited in ascending key order.  The
accumulator is the emitted plan, which doubles as the visited set. -/
def backwardsPlanAux (g : ChangeGraph) : Nat → Key → List Key → List Key
  | 0, _, acc => acc
  | fuel + 1, k, acc =>
    if k ∈ acc then acc
    else
      let acc2 := (sortKeys (childrenOf g k)).foldl
        (fun a c => backwardsPlanAux g fuel c a) acc
      if k ∈ acc2 then acc2 else acc2 ++ [k]

/-- Modelled from the spec: `backwards_plan(target)` returns the target and
all its descendants in child-first (deepest-descendant-first) order,
suitable for reverse execution (spec 4.1). -/
def backwards_plan (g : ChangeGraph) (target : Key) : List Key :=
  backwardsPlanAux g (g.nodes.length + 1) target []

/-- Modelled from the spec: fuelled depth-first traversal behind
`forwards_plan` (spec 4.1): ancestors are emitted parent-first, parents
visited in ascending key order. -/
def forwardsPlanAux (g : ChangeGraph) : Nat → Key → List Key → List Key
  | 0, _, acc => acc
  | fuel + 1, k, acc =>
    if k ∈ acc then acc
    else
      let acc2 := (sortKeys (parentsOf g k)).foldl
        (fun a p => forwardsPlanAux g fuel p a) acc
      if k ∈ acc2 then acc2 else acc2 ++ [k]

/-- Modelled from the spec: `forwards_plan(target)` returns the sequence of
keys to apply in dependency order, parents before children, ending with the
target (spec 4.1). -/
def forwards_plan (g : ChangeGraph) (target : Key) : List Key :=
  forwardsPlanAux g (g.nodes.length + 1) target []

/-- Loop of `ChangeLoader.check_consistent_history` (`loader.py` lines
226-238): for each applied key, skip it if it is not a graph node,
otherwise fail on its first parent that is not applied.  The result is the
`(change, parent)` payload of the `InconsistentChangeHistory` the source
raises, `none` when the source returns normally. -/
def checkConsistentAux (g : ChangeGraph) (applied : List Key) :
    List Key → Option (Key × Key)
  | [] => none
  | c :: rest =>
    if c ∈ g.nodes then
      match (parentsOf g c).find? (fun p => !(applied.contains p)) with
      | some p => some (c, p)
      | none => checkConsistentAux g applied rest
    else
      checkConsistentAux g applied rest

/-- `ChangeLoader.check_consistent_history` (`loader.py` lines 219-238),
with the persisted applied set given as the list of keys in iteration
order. -/
def check_consistent_history (g : ChangeGraph) (applied : List Key) :
    Option (Key × Key) :=
  checkConsistentAux g applied applied

/-- Dictionary lookup on an association list from app label to a set of
names (first matching entry). -/
def lookupApp : List (String × List String) → String → Option (List String)
  | [], _ => none
  | (a, ns) :: rest, app => if a == app then some ns else lookupApp rest app

/-- `seen_apps.setdefault(app_label, set()).add(change_name)` of
`loader.py` line 251, on an association list with set-semantics values. -/
def addSeen : List (String × List String) → String → String →
    List (String × List String)
  | [], app, name => [(app, [name])]
  | (a, ns) :: rest, app, name =>
    if a == app then (a, if name ∈ ns then ns else ns ++ [name]) :: rest
    else (a, ns) :: addSeen rest app name

/-- Loop of `ChangeLoader.detect_conflicts` (`loader.py` lines 246-251):
walk the leaf nodes; an app already seen is recorded as conflicting, then
the leaf's name is added to the app's seen set. -/
def detectConflictsAux : List Key → List (String × List String) →
    List String → (List (String × List String) × List String)
  | [], seen, confl => (seen, confl)
  | (app, name) :: rest, seen, confl =>
    let confl2 :=
      if (lookupApp seen app).isSome then
        (if app ∈ confl then confl else confl ++ [app])
      else confl
    detectConflictsAux rest (addSeen seen app name) confl2

/-- `ChangeLoader.detect_conflicts` (`loader.py` lines 240-252): the
mapping from each conflicting app label to its full seen set of leaf
names. -/
def detect_conflicts (g : ChangeGraph) : List (String × List String) :=
  let r := detectConflictsAux (leaf_nodes g) [] []
  r.2.map (fun app => (app, (lookupApp r.1 app).getD []))

/-- Inner accumulation of the backward branches of
`ChangeExecutor.change_plan` (`executor.py` lines 37-40 and 54-57): for
each key of a backwards plan still in the working applied set, append a
backward entry and remove the key from the working set. -/
def accumBackwards (st : List (Key × Bool) × List Key) (l : List Key) :
    List (Key × Bool) × List Key :=
  l.foldl (fun s c => if c ∈ s.2 then (s.1 ++ [(c, true)], s.2.erase c) else s) st

/-- Inner accumulation of the forward branch of
`ChangeExecutor.change_plan` (`executor.py` lines 59-62): for each key of
the forwards plan not yet in the working applied set, append a forward
entry and add the key to the working set. -/
def accumForwards (st : List (Key × Bool) × List Key) (l : List Key) :
    List (Key × Bool) × List Key :=
  l.foldl (fun s c => if c ∈ s.2 then s else (s.1 ++ [(c, false)], s.2 ++ [c])) st

/-- One target step of `ChangeExecutor.change_plan` (`executor.py` lines
32-62): a `(app, none)` target unapplies every applied change below the
app's roots; an applied concrete target rolls back through its immediate
same-app children only; an unapplied concrete target applies its forwards
plan. -/
def planTarget (g : ChangeGraph) (st : List (Key × Bool) × List Key)
    (target : String × Option String) : List (Key × Bool) × List Key :=
  match target.2 with
  | none =>
    (root_nodes g).foldl
      (fun s root =>
        if root.1 == target.1 then accumBackwards s (backwards_plan g root) else s)
      st
  | some name =>
    let t : Key := (target.1, name)
    if t ∈ st.2 then
      let nextInApp := sortKeys ((childrenOf g t).filter (fun n => n.1 == target.1))
      nextInApp.foldl (fun s node => accumBackwards s (backwards_plan g node)) st
    else
      accumForwards st (forwards_plan g t)

/-- `ChangeExecutor.change_plan` (`executor.py` lines 23-63): fold the
targets over a working `(plan, applied)` state; `cleanStart` empties the
initial applied set. -/
def change_plan (g : ChangeGraph) (appliedChanges : List Key)
    (targets : List (String × Option String)) (cleanStart : Bool) :
    List (Key × Bool) :=
  let applied := if cleanStart then [] else appliedChanges
  (targets.foldl (planTarget g) ([], applied)).1

/-- An error raised by a database-level action of a change (the backend
call inside `Change.apply`, or whatever `change.unapply` resolves to). -/
abbrev DbErr := String

/-- A change unit as the executor sees it (`change.py`), abstracted over
the project-state type `σ`: its key, its pure state mutation
(`mutate_state`, which replays `state_forwards` of each operation and is
the same function whether or not the original is preserved, cloning being
implicit in a pure model), its database-level forward action
(`Change.apply`) and backward action (the `unapply` attribute resolved on
the change instance), and its `atomic` flag. -/
structure ChangeT (σ : Type) where
  key : Key
  stateForward : σ → σ
  dbForward : σ → Except DbErr σ
  dbBackward : σ → Except DbErr σ
  atomic : Bool := true

/-- Progress-callback events (`executor.py`: `render_start`,
`render_success`, `apply_start`, `apply_success`, `unapply_start`,
`unapply_success`). -/
inductive ProgressEvent
  | renderStart
  | renderSuccess
  | applyStart (k : Key) (fake : Bool)
  | applySuccess (k : Key) (fake : Bool)
  | unapplyStart (k : Key) (fake : Bool)
  | unapplySuccess (k : Key) (fake : Bool)
deriving DecidableEq, Repr

/-- Observable executor state: the rows of the changelog table
(`ChangeRecorder`), a count of database-level backend invocations, and the
progress events emitted so far. -/
structure ExecState where
  applied : List Key
  backendCalls : Nat
  progress : List ProgressEvent
deriving DecidableEq, Repr

/-- Append a progress event (the source guards on `self.progress_callback`;
the model assumes a callback is installed). -/
def pushProgress (es : ExecState) (e : ProgressEvent) : ExecState :=
  { es with progress := es.progress ++ [e] }

/-- `ChangeExecutor.apply_change` (`executor.py` lines 208-221): emit
`apply_start`; unless `fake`, run the change's database-level forward
action (one backend invocation), propagating its error; then record the
change as applied and emit `apply_success`. -/
def apply_change {σ} (es : ExecState) (st : σ) (c : ChangeT σ) (fake : Bool) :
    Except (DbErr × ExecState) (σ × ExecState) :=
  let es1 := pushProgress es (.applyStart c.key fake)
  match (if fake then Except.ok (st, es1)
         else
           match c.dbForward st with
           | .error e => .error (e, { es1 with backendCalls := es1.backendCalls + 1 })
           | .ok st2 => .ok (st2, { es1 with backendCalls := es1.backendCalls + 1 })) with
  | .error r => .error r
  | .ok (st2, es2) =>
    let es3 := { es2 with applied := es2.applied ++ [c.key] }
    .ok (st2, pushProgress es3 (.applySuccess c.key fake))

/-- `ChangeExecutor.unapply_change` (`executor.py` lines 223-237): emit
`unapply_start`; unless `fake`, run the change's database-level backward
action inside a schema editor (one backend invocation), propagating its
error; then delete the change's rows from the record and emit
`unapply_success`. -/
def unapply_change {σ} (es : ExecState) (st : σ) (c : ChangeT σ) (fake : Bool) :
    Except (DbErr × ExecState) (σ × ExecState) :=
  let es1 := pushProgress es (.unapplyStart c.key fake)
  match (if fake then Except.ok (st, es1)
         else
           match c.dbBackward st with
           | .error e => .error (e, { es1 with backendCalls := es1.backendCalls + 1 })
           | .ok st2 => .ok (st2, { es1 with backendCalls := es1.backendCalls + 1 })) with
  | .error r => .error r
  | .ok (st2, es2) =>
    let es3 := { es2 with applied := es2.applied.filter (fun k => k != c.key) }
    .ok (st2, pushProgress es3 (.unapplySuccess c.key fake))

/-- The set `{m[0] for m in plan}` of `executor.py` lines 127 and 157,
as a duplicate-free key list. -/
def planKeySet {σ} (plan : List (ChangeT σ × Bool)) : List Key :=
  plan.foldl (fun s p => if p.1.key ∈ s then s else s ++ [p.1.key]) []

/-- Loop of `ChangeExecutor._change_all_forwards` (`executor.py` lines
128-143): walk the full plan, bail out once the to-run set is exhausted;
on each to-run change, render once (the `'apps' not in state.__dict__`
guard, tracked by the `rendered` flag) and apply it. -/
def changeAllForwardsAux {σ} (fake : Bool) :
    List (ChangeT σ) → List Key → σ → Bool → ExecState →
    Except (DbErr × ExecState) (σ × ExecState)
  | [], _, st, _, es => .ok (st, es)
  | c :: rest, toRun, st, rendered, es =>
    if toRun.isEmpty then .ok (st, es)
    else if c.key ∈ toRun then
      let es1 := if rendered then es
        else pushProgress (pushProgress es .renderStart) .renderSuccess
      match apply_change es1 st c fake with
      | .error r => .error r
      | .ok (st2, es2) => changeAllForwardsAux fake rest (toRun.erase c.key) st2 true es2
    else changeAllForwardsAux fake rest toRun st rendered es

/-- `ChangeExecutor._change_all_forwards` (`executor.py` lines 122-145). -/
def changeAllForwards {σ} (st : σ) (plan : List (ChangeT σ × Bool))
    (full_plan : List (ChangeT σ)) (fake : Bool) (es : ExecState) :
    Except (DbErr × ExecState) (σ × ExecState) :=
  changeAllForwardsAux fake full_plan (planKeySet plan) st false es

/-- Errors surfacing from `ChangeExecutor.change`: the `InvalidChangePlan`
of the mixed-plan check, a Python `AttributeError`, a Python
`KeyError`/`IndexError` on a dict or list access, or a database-level
error. -/
inductive RunError
  | invalidChangePlan
  | attributeError (name : String)
  | keyError (k : Key)
  | indexError
  | db (e : DbErr)
deriving DecidableEq, Repr

/-- Pass A of `ChangeExecutor._change_all_backwards` (`executor.py` lines
167-186): walk the full plan; for a to-run change, capture the
pre-mutation state in `states` and mutate forward; for a change that is
applied but not being undone, mutate forward only; bail out once the
to-run set is exhausted.  Returns the captured states and the final
forward state. -/
def backwardsPassA {σ} :
    List (ChangeT σ) → List Key → List Key → σ → List (Key × σ) →
    (List (Key × σ) × σ)
  | [], _, _, st, states => (states, st)
  | c :: rest, toRun, appliedKeys, st, states =>
    if toRun.isEmpty then (states, st)
    else if c.key ∈ toRun then
      backwardsPassA rest (toRun.erase c.key) appliedKeys (c.stateForward st)
        (states ++ [(c.key, st)])
    else if c.key ∈ appliedKeys then
      backwardsPassA rest toRun appliedKeys (c.stateForward st) states
    else
      backwardsPassA rest toRun appliedKeys st states

/-- Pass B of `ChangeExecutor._change_all_backwards` (`executor.py` lines
190-192): unapply each plan entry with its captured pre-state (`states[change]`
raises `KeyError` when absent) and remove it from the applied set
(`set.remove` raises `KeyError` when absent). -/
def backwardsPassB {σ} (fake : Bool) (states : List (Key × σ)) :
    List (ChangeT σ × Bool) → List Key → ExecState →
    Except (RunError × ExecState) (List Key × ExecState)
  | [], appliedKeys, es => .ok (appliedKeys, es)
  | (c, _) :: rest, appliedKeys, es =>
    match states.lookup c.key with
    | none => .error (.keyError c.key, es)
    | some stc =>
      match unapply_change es stc c fake with
      | .error (e, es2) => .error (.db e, es2)
      | .ok (_, es2) =>
        if c.key ∈ appliedKeys then
          backwardsPassB fake states rest (appliedKeys.erase c.key) es2
        else
          .error (.keyError c.key, es2)

/-- Post-change state rebuild of `executor.py` lines 197-204: find the
last-unapplied change in the full plan and forward-replay every still
applied change from that point onward onto its pre-state. -/
def rebuildState {σ} (appliedKeys : List Key) (lastKey : Key) (st : σ) :
    List (ChangeT σ) → σ
  | [] => st
  | c :: rest =>
    if c.key == lastKey then
      (c :: rest).foldl (fun s c2 => if c2.key ∈ appliedKeys then c2.stateForward s else s) st
    else
      rebuildState appliedKeys lastKey st rest

/-- `ChangeExecutor._change_all_backwards` (`executor.py` lines 147-206):
the two-pass backward algorithm.  `baseEmpty` stands for
`_create_project_state()` (the neutral baseline) and `appliedKeys` for the
loader's applied changes restricted to graph nodes (lines 161-164). -/
def changeAllBackwards {σ} (plan : List (ChangeT σ × Bool))
    (full_plan : List (ChangeT σ)) (fake : Bool) (baseEmpty : σ)
    (appliedKeys : List Key) (es : ExecState) :
    Except (RunError × ExecState) (σ × ExecState) :=
  let es1 := pushProgress es .renderStart
  let pa := backwardsPassA full_plan (planKeySet plan) appliedKeys baseEmpty []
  let es2 := pushProgress es1 .renderSuccess
  match backwardsPassB fake pa.1 plan appliedKeys es2 with
  | .error r => .error r
  | .ok (applied2, es3) =>
    match plan.getLast? with
    | none => .error (.indexError, es3)
    | some lastp =>
      match pa.1.lookup lastp.1.key with
      | none => .error (.keyError lastp.1.key, es3)
      | some stLast => .ok (rebuildState applied2 lastp.1.key stLast full_plan, es3)

/-- The method names defined on `ChangeExecutor` (`executor.py` lines
17-223): the attribute table Python consults when a method is invoked on
the instance. -/
def changeExecutorMethodNames : List String :=
  ["__init__", "change_plan", "_create_project_state", "change",
   "_change_all_forwards", "_change_all_backwards", "apply_change",
   "unapply_change"]

/-- `ChangeExecutor.change` (`executor.py` lines 83-120) with the plan
given explicitly (the `plan=None` path recomputes it via `change_plan`).
`full_plan` is the canonical clean-start plan of line 93; `stateOpt` is
the optional `state` argument; `baseApplied` stands for
`_create_project_state(with_applied_changes=True)` and `baseEmpty` for
`_create_project_state()`.  An empty plan returns the (given or rebuilt)
state; a mixed plan raises `InvalidChangePlan`; an all-forwards plan runs
`_change_all_forwards`; otherwise line 118 invokes
`self._migrate_all_backwards(...)`, a name absent from the class's
attribute table (which defines `_change_all_backwards` instead), so
attribute lookup fails. -/
def changeRun {σ} (plan : List (ChangeT σ × Bool)) (full_plan : List (ChangeT σ))
    (stateOpt : Option σ) (baseApplied : σ) (baseEmpty : σ)
    (appliedKeys : List Key) (fake : Bool) (es : ExecState) :
    Except (RunError × ExecState) (σ × ExecState) :=
  let allForwards := plan.all (fun p => !p.2)
  let allBackwards := plan.all (fun p => p.2)
  if plan.isEmpty then
    .ok (stateOpt.getD baseApplied, es)
  else if allForwards == allBackwards then
    .error (.invalidChangePlan, es)
  else if allForwards then
    match changeAllForwards (stateOpt.getD baseApplied) plan full_plan fake es with
    | .error (e, es2) => .error (.db e, es2)
    | .ok r => .ok r
  else
    if changeExecutorMethodNames.contains "_migrate_all_backwards" then
      changeAllBackwards plan full_plan fake baseEmpty appliedKeys es
    else
      .error (.attributeError "_migrate_all_backwards", es)

/-- Opaque payload of SQL parameters. -/
abbrev SqlParams := String

/-- An element of a list/tuple passed as `sqls` to `RunSQL._run_sql`: a
plain string, a 2-tuple `(sql, params)`, or a tuple of some other arity
`n` (which the body rejects with `ValueError`). -/
inductive SqlItem
  | str (s : String)
  | pair (s : String) (params : SqlParams)
  | badTuple (n : Nat)
deriving DecidableEq, Repr

/-- The `sql` / `reverse_sql` payload of a `RunSQL` operation: a plain
string, or a list/tuple of items. -/
inductive Sqls
  | one (s : String)
  | many (items : List SqlItem)
deriving DecidableEq, Repr

/-- The `RunSQL` operation (`operations.py` lines 5-72), restricted to the
fields its database-level methods read. -/
structure RunSQLOp where
  sql : Sqls
  reverse_sql : Option Sqls := none
deriving DecidableEq, Repr

/-- A Python exception raised by a `RunSQL` database-level method. -/
inductive PyErr
  | typeError (msg : String)
  | valueError (msg : String)
  | notImplementedError (msg : String)
deriving DecidableEq, Repr

/-- A statement handed to `schema_editor.execute`: the SQL text and the
optional params. -/
abbrev ExecutedStmt := String × Option SqlParams

/-- Iteration of `_run_sql` over a list/tuple of statements
(`operations.py` lines 59-68): each plain entry executes with
`params=None`, each 2-tuple destructures into `(sql, params)`, any other
tuple arity raises `ValueError`; the error carries the statements already
executed. -/
def runSqlItems : List SqlItem → List ExecutedStmt →
    Except (PyErr × List ExecutedStmt) (List ExecutedStmt)
  | [], done => .ok done
  | .str s :: rest, done => runSqlItems rest (done ++ [(s, none)])
  | .pair s p :: rest, done => runSqlItems rest (done ++ [(s, some p)])
  | .badTuple n :: rest, done =>
    let _ := rest
    .error (.valueError ("Expected a 2-tuple but got " ++ toString n), done)

/-- The body of `RunSQL._run_sql` (`operations.py` lines 57-72), with the
backend's `prepare_sql_script` abstracted as `prepare`.  `noop` is the
empty string (line 12). -/
def runSqlBody (prepare : String → List String) (sqls : Sqls) :
    Except (PyErr × List ExecutedStmt) (List ExecutedStmt) :=
  match sqls with
  | .many items => runSqlItems items []
  | .one s =>
    if s == "" then .ok []
    else .ok ((prepare s).map (fun stmt => (stmt, none)))

/-- An argument of a call to the bound method `_run_sql`: the schema
editor, or a `sqls` payload. -/
inductive RunSqlArg
  | editor
  | sqlsArg (s : Sqls)
deriving DecidableEq, Repr

/-- The signature `def _run_sql(self, schema_editor, sqls)`
(`operations.py` line 57) has two required positional parameters after
`self`. -/
def runSqlParamCount : Nat := 2

/-- Python call protocol for the bound method `_run_sql`: fewer positional
arguments than required parameters raises `TypeError` before the body
runs; with both arguments present the body runs on the `sqls` payload. -/
def callRunSql (prepare : String → List String) (args : List RunSqlArg) :
    Except (PyErr × List ExecutedStmt) (List ExecutedStmt) :=
  if args.length < runSqlParamCount then
    .error (.typeError "_run_sql() missing 1 required positional argument: sqls", [])
  else
    match args with
    | [_, .sqlsArg s] => runSqlBody prepare s
    | _ => .error (.typeError "_run_sql() argument mismatch", [])

/-- `RunSQL.database_forwards` (`operations.py` lines 46-47): invokes
`self._run_sql(self.sql)` — a single argument. -/
def runSqlDatabaseForwards (op : RunSQLOp) (prepare : String → List String) :
    Except (PyErr × List ExecutedStmt) (List ExecutedStmt) :=
  callRunSql prepare [.sqlsArg op.sql]

/-- `RunSQL.database_backwards` (`operations.py` lines 49-52): raises
`NotImplementedError` when `reverse_sql` is absent, otherwise invokes
`self._run_sql(self.reverse_sql)` — a single argument. -/
def runSqlDatabaseBackwards (op : RunSQLOp) (prepare : String → List String) :
    Except (PyErr × List ExecutedStmt) (List ExecutedStmt) :=
  match op.reverse_sql with
  | none => .error (.notImplementedError "You cannot reverse this operation", [])
  | some rs => callRunSql prepare [.sqlsArg rs]

/-- The attribute names defined on `ChangeRecorder` (`recorder.py` lines
10-73): the table Python consults when an attribute is read on the
instance. -/
def changeRecorderAttrNames : List String :=
  ["__init__", "connection", "change_qs", "ensure_schema", "applied_changes",
   "record_applied", "record_unapplied", "flush"]

/-- The changelog table name `ChangeLog._meta.db_table` (`models.py`,
Django default `<app_label>_<model_name>`). -/
def changelogDbTable : String := "exo_changelog_changelog"

/-- An exception raised by a recorder method. -/
inductive RecErr
  | attributeError (name : String)
  | databaseError (msg : String)
  | changeSchemaMissing (msg : String)
deriving DecidableEq, Repr

/-- The database as the recorder sees it: the existing table names and the
rows of the changelog table. -/
structure RecorderDb where
  tables : List String
  rows : List Key
deriving DecidableEq, Repr

/-- `ChangeRecorder.ensure_schema` (`recorder.py` lines 33-46): return if
the changelog table exists; otherwise the `try` body evaluates the
attribute `self.Migration` before `editor.create_model` can run — a name
absent from the recorder's attribute table, raising `AttributeError` — and
the `except DatabaseError` clause converts only a `DatabaseError` into
`ChangeSchemaMissing` (entering the schema editor is modelled as
non-raising on a working connection). -/
def ensure_schema (db : RecorderDb) : Except RecErr RecorderDb :=
  if changelogDbTable ∈ db.tables then .ok db
  else
    let body : Except RecErr RecorderDb :=
      if changeRecorderAttrNames.contains "Migration" then
        .ok { db with tables := db.tables ++ [changelogDbTable] }
      else
        .error (.attributeError "Migration")
    match body with
    | .error (.databaseError e) => .error (.changeSchemaMissing e)
    | r => r

/-- `ChangeRecorder.applied_changes` (`recorder.py` lines 48-53):
`ensure_schema` first, then the set of `(app, name)` rows. -/
def applied_changes (db : RecorderDb) : Except RecErr (List Key) :=
  match ensure_schema db with
  | .error e => .error e
  | .ok db2 => .ok db2.rows

/-- `ChangeRecorder.record_applied` (`recorder.py` lines 55-60):
`ensure_schema` first, then create the row. -/
def record_applied (db : RecorderDb) (app name : String) :
    Except RecErr RecorderDb :=
  match ensure_schema db with
  | .error e => .error e
  | .ok db2 => .ok { db2 with rows := db2.rows ++ [(app, name)] }

/-- `ChangeRecorder.record_unapplied` (`recorder.py` lines 62-67):
`ensure_schema` first, then delete the matching rows. -/
def record_unapplied (db : RecorderDb) (app name : String) :
    Except RecErr RecorderDb :=
  match ensure_schema db with
  | .error e => .error e
  | .ok db2 => .ok { db2 with rows := db2.rows.filter (fun r => r != (app, name)) }

/-- Sample key B of app "x". -/
def keyB : Key := ("x", "0001")

/-- Sample key C of app "x". -/
def keyC : Key := ("x", "0002")

/-- A two-node sample graph in which `keyC` depends on `keyB`. -/
def gSample : ChangeGraph := ⟨[keyB, keyC], [(keyC, keyB)]⟩

/-- A topological rank for `gSample`: parents rank below children. -/
def rankSample (k : Key) : Nat := if k = keyB then 0 else 1

/-- The empty executor state. -/
def esEmpty : ExecState := ⟨[], 0, []⟩

/-- A sample change whose database-level actions fail. -/
def failChange : ChangeT Nat :=
  { key := keyB, stateForward := id,
    dbForward := fun _ => .error "boom", dbBackward := fun _ => .error "boom" }

/-- A sample change on `keyB` whose database-level actions succeed. -/
def okChange : ChangeT Nat :=
  { key := keyB, stateForward := fun n => n + 1,
    dbForward := fun n => .ok (n + 1), dbBackward := fun n => .ok n }

/-- A sample change on `keyC` whose database-level actions succeed. -/
def okChangeC : ChangeT Nat :=
  { key := keyC, stateForward := fun n => n + 1,
    dbForward := fun n => .ok (n + 1), dbBackward := fun n => .ok n }

/-- A sample graph with two leaves in app "x" and one in app "y". -/
def gConflict : ChangeGraph := ⟨[keyB, keyC, ("y", "0001")], []⟩

/-- A sample `RunSQL` operation with a reverse statement. -/
def sampleRunSQL : RunSQLOp := ⟨.one "CREATE TABLE t", some (.one "DROP TABLE t")⟩

/-- A fresh database without the changelog table. -/
def freshDb : RecorderDb := ⟨[], []⟩

/-- C8: for every change unit, running `apply_change` or `unapply_change`
with `fake = true` performs the applied-set transition (record added for
apply, rows removed for unapply) and emits the start/success progress
notifications, while the count of database-level backend calls is
unchanged. -/
theorem fake_mode_updates_applied_set_without_backend_calls {σ : Type}
    (es : ExecState) (st : σ) (c : ChangeT σ) :
    (∃ es2, apply_change es st c true = .ok (st, es2) ∧
        es2.applied = es.applied ++ [c.key] ∧
        es2.backendCalls = es.backendCalls ∧
        es2.progress = es.progress ++ [.applyStart c.key true, .applySuccess c.key true]) ∧
    (∃ es2, unapply_change es st c true = .ok (st, es2) ∧
        es2.applied = es.applied.filter (fun k => k != c.key) ∧
        es2.backendCalls = es.backendCalls ∧
        es2.progress = es.progress ++ [.unapplyStart c.key true, .unapplySuccess c.key true]) := by
  refine ⟨⟨_, rfl, ?_, ?_, ?_⟩, ⟨_, rfl, ?_, ?_, ?_⟩⟩ <;>
    simp [apply_change, unapply_change, pushProgress]

/-- C3: the applied-set record is written only after the unit's
database-level action completes: a failing forward or backward action
propagates its error with the applied set exactly as before the attempt,
and a successful `apply_change`/`unapply_change` implies the database
action returned, the record transition happening afterwards. -/
theorem applied_record_follows_database_action {σ : Type}
    (es : ExecState) (st : σ) (c : ChangeT σ) :
    (∀ e, c.dbForward st = .error e →
        apply_change es st c false =
          .error (e, { es with backendCalls := es.backendCalls + 1,
                               progress := es.progress ++ [.applyStart c.key false] })) ∧
    (∀ st2 es2, apply_change es st c false = .ok (st2, es2) →
        c.dbForward st = .ok st2 ∧ es2.applied = es.applied ++ [c.key]) ∧
    (∀ e, c.dbBackward st = .error e →
        unapply_change es st c false =
          .error (e, { es with backendCalls := es.backendCalls + 1,
                               progress := es.progress ++ [.unapplyStart c.key false] })) ∧
    (∀ st2 es2, unapply_change es st c false = .ok (st2, es2) →
        c.dbBackward st = .ok st2 ∧ es2.applied = es.applied.filter (fun k => k != c.key)) := by
  refine ⟨fun e he => ?_, fun st2 es2 h => ?_, fun e he => ?_, fun st2 es2 h => ?_⟩
  · simp [apply_change, pushProgress, he]
  · cases hd : c.dbForward st with
    | error e => simp [apply_change, pushProgress, hd] at h
    | ok st3 =>
      simp [apply_change, pushProgress, hd] at h
      obtain ⟨h1, h2⟩ := h
      subst h2
      simp [hd, h1]
  · simp [unapply_change, pushProgress, he]
  · cases hd : c.dbBackward st with
    | error e => simp [unapply_change, pushProgress, hd] at h
    | ok st3 =>
      simp [unapply_change, pushProgress, hd] at h
      obtain ⟨h1, h2⟩ := h
      subst h2
      simp [hd, h1]

/-- Witness for C3 at a concrete failing change. -/
theorem applied_record_follows_database_action_witness :
    apply_change esEmpty 0 failChange false =
      .error ("boom", { esEmpty with
                          backendCalls := esEmpty.backendCalls + 1,
                          progress := esEmpty.progress ++ [.applyStart failChange.key false] }) :=
  (applied_record_follows_database_action esEmpty 0 failChange).1 "boom" rfl

/-- C9: every database-level application of a `RunSQL` operation, forward
or (when a `reverse_sql` is supplied) backward, passes a single argument
to `_run_sql`, whose signature requires both a schema editor and a `sqls`
argument, so the call fails with a missing-argument `TypeError` with no
SQL statement executed. -/
theorem run_sql_missing_argument (op : RunSQLOp) (prepare : String → List String) :
    runSqlDatabaseForwards op prepare =
      .error (.typeError "_run_sql() missing 1 required positional argument: sqls", []) ∧
    (∀ rs, op.reverse_sql = some rs →
      runSqlDatabaseBackwards op prepare =
        .error (.typeError "_run_sql() missing 1 required positional argument: sqls", [])) := by
  constructor
  · rfl
  · intro rs h
    obtain ⟨s, r⟩ := op
    cases h
    rfl

/-- Witness for C9 at a concrete reversible operation. -/
theorem run_sql_missing_argument_witness :
    runSqlDatabaseBackwards sampleRunSQL (fun s => [s]) =
      .error (.typeError "_run_sql() missing 1 required positional argument: sqls", []) :=
  (run_sql_missing_argument sampleRunSQL (fun s => [s])).2 (.one "DROP TABLE t") rfl

/-- C10: when the changelog table does not exist, `ensure_schema`
evaluates the undefined attribute `Migration` and raises `AttributeError`
instead of creating the table; `applied_changes`, `record_applied` and
`record_unapplied`, which call `ensure_schema` first, fail the same way on
a fresh database; and no recorder state makes `ensure_schema` raise
`ChangeSchemaMissing`. -/
theorem ensure_schema_attribute_error (db : RecorderDb)
    (h : changelogDbTable ∉ db.tables) :
    ensure_schema db = .error (.attributeError "Migration") ∧
    applied_changes db = .error (.attributeError "Migration") ∧
    (∀ a n, record_applied db a n = .error (.attributeError "Migration")) ∧
    (∀ a n, record_unapplied db a n = .error (.attributeError "Migration")) ∧
    (∀ db2 m, ensure_schema db2 ≠ .error (.changeSchemaMissing m)) := by
  have hc : "Migration" ∉ changeRecorderAttrNames := by decide
  have hmain : ensure_schema db = .error (.attributeError "Migration") := by
    simp [ensure_schema, h, hc]
  refine ⟨hmain, ?_, fun a n => ?_, fun a n => ?_, fun db2 m => ?_⟩
  · simp [applied_changes, hmain]
  · simp [record_applied, hmain]
  · simp [record_unapplied, hmain]
  · by_cases h2 : changelogDbTable ∈ db2.tables
    · simp [ensure_schema, h2]
    · simp [ensure_schema, h2, hc]

/-- Witness for C10 at a fresh database. -/
theorem ensure_schema_attribute_error_witness :
    ensure_schema freshDb = .error (.attributeError "Migration") :=
  (ensure_schema_attribute_error freshDb (by simp [freshDb])).1

/-- C4: a non-empty plan containing both a forward and a backward entry
makes `change` raise `InvalidChangePlan` with the executor state exactly
as given (no unit applied or unapplied, applied set untouched); a
non-empty purely forward or purely backward plan never produces that
error. -/
theorem mixed_plan_rejected_before_any_action {σ : Type}
    (plan : List (ChangeT σ × Bool)) (full_plan : List (ChangeT σ))
    (stateOpt : Option σ) (bA bE : σ) (ak : List Key) (fake : Bool)
    (es : ExecState) :
    ((∃ p ∈ plan, p.2 = false) → (∃ q ∈ plan, q.2 = true) →
      changeRun plan full_plan stateOpt bA bE ak fake es =
        .error (.invalidChangePlan, es)) ∧
    (((∀ p ∈ plan, p.2 = false) ∨ (∀ p ∈ plan, p.2 = true)) → plan ≠ [] →
      ∀ es2, changeRun plan full_plan stateOpt bA bE ak fake es ≠
        .error (.invalidChangePlan, es2)) := by
  constructor
  · rintro ⟨p, hp, hp2⟩ ⟨q, hq, hq2⟩
    have hne : plan ≠ [] := by
      intro hx
      rw [hx] at hp
      cases hp
    obtain ⟨hd, tl, rfl⟩ := List.exists_cons_of_ne_nil hne
    have hF : (hd :: tl).all (fun r => !r.2) = false := by
      cases hAll : (hd :: tl).all (fun r => !r.2) with
      | false => rfl
      | true =>
        have := List.all_eq_true.mp hAll q hq
        rw [hq2] at this
        simp at this
    have hB : (hd :: tl).all (fun r => r.2) = false := by
      cases hAll : (hd :: tl).all (fun r => r.2) with
      | false => rfl
      | true =>
        have := List.all_eq_true.mp hAll p hp
        rw [hp2] at this
        simp at this
    simp [changeRun, hF, hB]
  · intro hpure hne es2
    obtain ⟨hd, tl, rfl⟩ := List.exists_cons_of_ne_nil hne
    have hcm : "_migrate_all_backwards" ∉ changeExecutorMethodNames := by decide
    cases hpure with
    | inl hFall =>
      have hF : (hd :: tl).all (fun r => !r.2) = true :=
        List.all_eq_true.mpr (fun r hr => by rw [hFall r hr]; rfl)
      have hB : (hd :: tl).all (fun r => r.2) = false := by
        cases hAll : (hd :: tl).all (fun r => r.2) with
        | false => rfl
        | true =>
          have h1 := List.all_eq_true.mp hAll hd (List.mem_cons_self hd tl)
          have h2 := hFall hd (List.mem_cons_self hd tl)
          rw [h2] at h1
          cases h1
      simp only [changeRun, hF, hB, List.isEmpty_cons, Bool.false_eq_true,
        if_false, beq_iff_eq, if_true]
      cases hm : changeAllForwards (stateOpt.getD bA) (hd :: tl) full_plan fake es with
      | error r =>
        obtain ⟨e, es3⟩ := r
        simp [hm]
      | ok r => simp [hm]
    | inr hBall =>
      have hB : (hd :: tl).all (fun r => r.2) = true :=
        List.all_eq_true.mpr (fun r hr => hBall r hr)
      have hF : (hd :: tl).all (fun r => !r.2) = false := by
        cases hAll : (hd :: tl).all (fun r => !r.2) with
        | false => rfl
        | true =>
          have h1 := List.all_eq_true.mp hAll hd (List.mem_cons_self hd tl)
          have h2 := hBall hd (List.mem_cons_self hd tl)
          rw [h2] at h1
          cases h1
      simp [changeRun, hF, hB, hcm]

/-- Witness for C4 at a concrete mixed plan. -/
theorem mixed_plan_rejected_before_any_action_witness :
    changeRun [(okChange, false), (okChangeC, true)] ([] : List (ChangeT Nat))
      none 0 0 [] false esEmpty = .error (.invalidChangePlan, esEmpty) :=
  (mixed_plan_rejected_before_any_action [(okChange, false), (okChangeC, true)]
      [] none 0 0 [] false esEmpty).1
    ⟨(okChange, false), List.mem_cons_self _ _, rfl⟩
    ⟨(okChangeC, true), List.mem_cons_of_mem _ (List.mem_cons_self _ _), rfl⟩

/-- C1 (code bug): on a non-empty all-backwards plan, `change` does not
execute the two-pass backward algorithm: line 118 invokes the undefined
attribute `_migrate_all_backwards`, so the run fails with
`AttributeError` before any unit is unapplied and before any applied-set
write — while the defined but never-invoked helper
`_change_all_backwards` runs the two-pass algorithm on the same input
without error. -/
theorem backward_run_attribute_error :
    changeRun [(okChangeC, true)] [okChange, okChangeC] none 0 0 [keyB, keyC]
        false esEmpty =
      .error (.attributeError "_migrate_all_backwards", esEmpty) ∧
    changeAllBackwards [(okChangeC, true)] [okChange, okChangeC] false 0
        [keyB, keyC] esEmpty =
      .ok (1, ⟨[], 1, [.renderStart, .renderSuccess, .unapplyStart keyC false,
                       .unapplySuccess keyC false]⟩) := by
  constructor
  · rfl
  · rfl

/-- The consistency loop returns `none` exactly when every scanned applied
key that is a graph node has all its parents in the applied set. -/
theorem checkConsistentAux_eq_none_iff (g : ChangeGraph) (applied : List Key) :
    ∀ l, checkConsistentAux g applied l = none ↔
      ∀ c ∈ l, c ∈ g.nodes → ∀ p ∈ parentsOf g c, p ∈ applied := by
  intro l
  induction l with
  | nil => simp [checkConsistentAux]
  | cons c rest ih =>
    simp only [checkConsistentAux]
    split
    · next hn =>
      split
      · next p hf =>
        constructor
        · intro h
          cases h
        · intro hall
          exfalso
          have hq := List.find?_some hf
          have hqm := List.mem_of_find?_eq_some hf
          have hpa : p ∈ applied := hall c (List.mem_cons_self _ _) hn p hqm
          have : p ∉ applied := by simpa using hq
          exact this hpa
      · next hf =>
        rw [ih]
        constructor
        · intro h x hx
          rcases List.mem_cons.mp hx with rfl | hx2
          · intro _ p hp
            have := List.find?_eq_none.mp hf p hp
            simpa using this
          · exact h x hx2
        · intro h x hx
          exact h x (List.mem_cons_of_mem _ hx)
    · next hn =>
      rw [ih]
      constructor
      · intro h x hx
        rcases List.mem_cons.mp hx with rfl | hx2
        · intro hxn
          exact absurd hxn hn
        · exact h x hx2
      · intro h x hx
        exact h x (List.mem_cons_of_mem _ hx)

/-- C5: `check_consistent_history` raises `InconsistentChangeHistory` if
and only if some change in the applied set is a graph node with a graph
parent missing from the applied set; applied keys that are not graph
nodes are skipped and never cause the error, and without such a pair the
call returns without error. -/
theorem consistent_history_error_iff (g : ChangeGraph) (applied : List Key) :
    (check_consistent_history g applied).isSome ↔
      ∃ c ∈ applied, c ∈ g.nodes ∧ ∃ p ∈ parentsOf g c, p ∉ applied := by
  rw [check_consistent_history, Option.isSome_iff_ne_none, Ne,
    checkConsistentAux_eq_none_iff]
  push_neg
  rfl

/-- Membership is invariant under the insertion step of the key sort. -/
theorem mem_insertKey {x k : Key} : ∀ {l : List Key},
    x ∈ insertKey k l ↔ x = k ∨ x ∈ l := by
  intro l
  induction l with
  | nil => simp [insertKey]
  | cons y ys ih =>
    simp only [insertKey]
    split
    · simp [List.mem_cons]
    · simp only [List.mem_cons, ih]
      tauto

/-- Membership is invariant under the key sort. -/
theorem mem_sortKeys {x : Key} : ∀ {l : List Key}, x ∈ sortKeys l ↔ x ∈ l := by
  intro l
  induction l with
  | nil => simp [sortKeys]
  | cons y ys ih => simp [sortKeys, mem_insertKey, ih]

/-- The insertion step permutes to consing. -/
theorem insertKey_perm (k : Key) : ∀ (l : List Key),
    List.Perm (insertKey k l) (k :: l) := by
  intro l
  induction l with
  | nil => rfl
  | cons y ys ih =>
    simp only [insertKey]
    split
    · exact List.Perm.refl _
    · exact List.Perm.trans (List.Perm.cons y ih) (List.Perm.swap k y ys)

/-- The key sort is a permutation. -/
theorem sortKeys_perm : ∀ (l : List Key), List.Perm (sortKeys l) l := by
  intro l
  induction l with
  | nil => exact List.Perm.refl _
  | cons y ys ih =>
    exact List.Perm.trans (insertKey_perm y (sortKeys ys)) (List.Perm.cons y ih)

/-- A key is a leaf node exactly when it is a node with no children. -/
theorem mem_leaf_nodes {g : ChangeGraph} {k : Key} :
    k ∈ leaf_nodes g ↔ k ∈ g.nodes ∧ childrenOf g k = [] := by
  simp [leaf_nodes, mem_sortKeys, List.mem_filter, List.isEmpty_iff]

/-- C6: when every node of the graph is in the applied set, `change_plan`
on the graph's leaf nodes as concrete targets with `clean_start = False`
returns the empty plan. -/
theorem fully_applied_leaf_targets_yield_empty_plan (g : ChangeGraph)
    (applied0 : List Key) (h : ∀ k ∈ g.nodes, k ∈ applied0) :
    change_plan g applied0 ((leaf_nodes g).map (fun k => (k.1, some k.2))) false = [] := by
  have key : ∀ ls : List Key, (∀ k ∈ ls, k ∈ leaf_nodes g) →
      (ls.map (fun k => (k.1, some k.2))).foldl (planTarget g) ([], applied0) =
        ([], applied0) := by
    intro ls
    induction ls with
    | nil =>
      intro _
      rfl
    | cons k rest ih =>
      intro hall
      have hk := hall k (List.mem_cons_self _ _)
      obtain ⟨hkn, hkc⟩ := mem_leaf_nodes.mp hk
      have ht : k ∈ applied0 := h k hkn
      have hstep : planTarget g ([], applied0) (k.1, some k.2) = ([], applied0) := by
        simp only [planTarget, Prod.mk.eta]
        rw [if_pos ht, hkc]
        rfl
      simp only [List.map_cons, List.foldl_cons, hstep]
      exact ih (fun x hx => hall x (List.mem_cons_of_mem _ hx))
  simp only [change_plan]
  rw [if_neg (by simp : ¬(false : Bool) = true)]
  rw [key (leaf_nodes g) (fun x hx => hx)]

/-- Witness for C6 at a concrete fully applied graph. -/
theorem fully_applied_leaf_targets_yield_empty_plan_witness :
    change_plan gSample [keyB, keyC]
      ((leaf_nodes gSample).map (fun k => (k.1, some k.2))) false = [] :=
  fully_applied_leaf_targets_yield_empty_plan gSample [keyB, keyC] (by decide)

/-- A key is a child of `k` exactly when it has a dependency edge to `k`. -/
theorem mem_childrenOf {g : ChangeGraph} {c k : Key} :
    c ∈ childrenOf g k ↔ (c, k) ∈ g.edges := by
  simp only [childrenOf, List.mem_map, List.mem_filter, beq_iff_eq]
  constructor
  · rintro ⟨e, ⟨he, h2⟩, h1⟩
    have hek : e = (c, k) := by
      cases e
      simp_all
    rw [hek] at he
    exact he
  · intro h
    exact ⟨(c, k), ⟨h, rfl⟩, rfl⟩

/-- Folding the backward traversal over a list of higher-ranked starting
keys only adds keys of rank above `rank k`. -/
theorem bpa_fold_rank (g : ChangeGraph) (rank : Key → Nat) (n : Nat) (k : Key)
    (ihn : ∀ c acc x, x ∈ backwardsPlanAux g n c acc → x ∈ acc ∨ rank c ≤ rank x) :
    ∀ cs : List Key, (∀ c ∈ cs, rank k < rank c) →
      ∀ acc x, x ∈ cs.foldl (fun a c => backwardsPlanAux g n c a) acc →
        x ∈ acc ∨ rank k < rank x := by
  intro cs
  induction cs with
  | nil =>
    intro _ acc x hx
    exact Or.inl hx
  | cons c rest ihc =>
    intro hch acc x hx
    simp only [List.foldl_cons] at hx
    rcases ihc (fun d hd => hch d (List.mem_cons_of_mem _ hd)) _ x hx with h | h
    · rcases ihn c acc x h with h2 | h2
      · exact Or.inl h2
      · exact Or.inr (lt_of_lt_of_le (hch c (List.mem_cons_self _ _)) h2)
    · exact Or.inr h

/-- In a graph whose edges respect a topological rank (parents below
children), every key emitted by the backward traversal from `k` ranks at
least as high as `k`. -/
theorem backwardsPlanAux_rank (g : ChangeGraph) (rank : Key → Nat)
    (hrank : ∀ e ∈ g.edges, rank e.2 < rank e.1) :
    ∀ fuel k acc x, x ∈ backwardsPlanAux g fuel k acc → x ∈ acc ∨ rank k ≤ rank x := by
  intro fuel
  induction fuel with
  | zero =>
    intro k acc x hx
    exact Or.inl hx
  | succ n ih =>
    intro k acc x hx
    simp only [backwardsPlanAux] at hx
    by_cases hk : k ∈ acc
    · rw [if_pos hk] at hx
      exact Or.inl hx
    · rw [if_neg hk] at hx
      have hch : ∀ c ∈ sortKeys (childrenOf g k), rank k < rank c := by
        intro c hc
        exact hrank (c, k) (mem_childrenOf.mp (mem_sortKeys.mp hc))
      have hfold := bpa_fold_rank g rank n k (fun c acc x h => ih c acc x h)
        (sortKeys (childrenOf g k)) hch acc
      by_cases h2 : k ∈ (sortKeys (childrenOf g k)).foldl
          (fun a c => backwardsPlanAux g n c a) acc
      · rw [if_pos h2] at hx
        rcases hfold x hx with h | h
        · exact Or.inl h
        · exact Or.inr (le_of_lt h)
      · rw [if_neg h2] at hx
        rcases List.mem_append.mp hx with h | h
        · rcases hfold x h with h3 | h3
          · exact Or.inl h3
          · exact Or.inr (le_of_lt h3)
        · rw [List.mem_singleton.mp h]
          exact Or.inr (le_refl _)

/-- With positive fuel, the backward traversal from `k` always emits `k`
(or finds it already emitted). -/
theorem self_mem_backwardsPlanAux (g : ChangeGraph) (n : Nat) (k : Key)
    (acc : List Key) : k ∈ backwardsPlanAux g (n + 1) k acc := by
  simp only [backwardsPlanAux]
  by_cases hk : k ∈ acc
  · rw [if_pos hk]
    exact hk
  · rw [if_neg hk]
    by_cases h2 : k ∈ (sortKeys (childrenOf g k)).foldl
        (fun a c => backwardsPlanAux g n c a) acc
    · rw [if_pos h2]
      exact h2
    · rw [if_neg h2]
      exact List.mem_append.mpr (Or.inr (List.mem_singleton.mpr rfl))

/-- The backwards plan of a key contains the key itself. -/
theorem self_mem_backwards_plan (g : ChangeGraph) (k : Key) :
    k ∈ backwards_plan g k :=
  self_mem_backwardsPlanAux g g.nodes.length k []

/-- The backward accumulation only grows the plan. -/
theorem accumBackwards_plan_mono :
    ∀ (l : List Key) (st : List (Key × Bool) × List Key) (x : Key × Bool),
      x ∈ st.1 → x ∈ (accumBackwards st l).1 := by
  intro l
  induction l with
  | nil =>
    intro st x hx
    exact hx
  | cons c rest ih =>
    intro st x hx
    simp only [accumBackwards, List.foldl_cons]
    by_cases hc : c ∈ st.2
    · rw [if_pos hc]
      exact ih _ x (List.mem_append.mpr (Or.inl hx))
    · rw [if_neg hc]
      exact ih _ x hx

/-- The backward accumulation only shrinks the working applied set. -/
theorem accumBackwards_applied_subset :
    ∀ (l : List Key) (st : List (Key × Bool) × List Key) (x : Key),
      x ∈ (accumBackwards st l).2 → x ∈ st.2 := by
  intro l
  induction l with
  | nil =>
    intro st x hx
    exact hx
  | cons c rest ih =>
    intro st x hx
    simp only [accumBackwards, List.foldl_cons] at hx
    by_cases hc : c ∈ st.2
    · rw [if_pos hc] at hx
      exact List.mem_of_mem_erase (ih _ x hx)
    · rw [if_neg hc] at hx
      exact ih _ x hx

/-- Every entry added by the backward accumulation is a backward entry for
a key of the iterated list that was in the working applied set. -/
theorem accumBackwards_sound :
    ∀ (l : List Key) (st : List (Key × Bool) × List Key) (x : Key × Bool),
      x ∈ (accumBackwards st l).1 →
        x ∈ st.1 ∨ (x.2 = true ∧ x.1 ∈ l ∧ x.1 ∈ st.2) := by
  intro l
  induction l with
  | nil =>
    intro st x hx
    exact Or.inl hx
  | cons c rest ih =>
    intro st x hx
    simp only [accumBackwards, List.foldl_cons] at hx
    by_cases hc : c ∈ st.2
    · rw [if_pos hc] at hx
      rcases ih _ x hx with h | ⟨h1, h2, h3⟩
      · rcases List.mem_append.mp h with h4 | h4
        · exact Or.inl h4
        · rw [List.mem_singleton.mp h4]
          exact Or.inr ⟨rfl, List.mem_cons_self _ _, hc⟩
      · exact Or.inr ⟨h1, List.mem_cons_of_mem _ h2, List.mem_of_mem_erase h3⟩
    · rw [if_neg hc] at hx
      rcases ih _ x hx with h | ⟨h1, h2, h3⟩
      · exact Or.inl h
      · exact Or.inr ⟨h1, List.mem_cons_of_mem _ h2, h3⟩

/-- A key of the working applied set either survives the backward
accumulation or its backward entry has been appended to the plan. -/
theorem accumBackwards_applied_preserved :
    ∀ (l : List Key) (st : List (Key × Bool) × List Key) (x : Key),
      x ∈ st.2 →
        x ∈ (accumBackwards st l).2 ∨ (x, true) ∈ (accumBackwards st l).1 := by
  intro l
  induction l with
  | nil =>
    intro st x hx
    exact Or.inl hx
  | cons c rest ih =>
    intro st x hx
    simp only [accumBackwards, List.foldl_cons]
    by_cases hc : c ∈ st.2
    · rw [if_pos hc]
      by_cases hxc : x = c
      · subst hxc
        exact Or.inr (accumBackwards_plan_mono rest _ _
          (List.mem_append.mpr (Or.inr (List.mem_singleton.mpr rfl))))
      · exact ih _ x ((List.mem_erase_of_ne hxc).mpr hx)
    · rw [if_neg hc]
      exact ih _ x hx

/-- A key of the iterated list that is in the working applied set (or
already planned) ends up with a backward entry in the plan. -/
theorem accumBackwards_progress :
    ∀ (l : List Key) (st : List (Key × Bool) × List Key) (x : Key),
      x ∈ l → (x ∈ st.2 ∨ (x, true) ∈ st.1) →
        (x, true) ∈ (accumBackwards st l).1 := by
  intro l
  induction l with
  | nil =>
    intro st x hx _
    cases hx
  | cons c rest ih =>
    intro st x hxl hdisj
    simp only [accumBackwards, List.foldl_cons]
    by_cases hc : c ∈ st.2
    · rw [if_pos hc]
      rcases List.mem_cons.mp hxl with rfl | hxrest
      · exact accumBackwards_plan_mono rest _ _
          (List.mem_append.mpr (Or.inr (List.mem_singleton.mpr rfl)))
      · apply ih _ x hxrest
        rcases hdisj with h | h
        · by_cases hxc : x = c
          · subst hxc
            exact Or.inr (List.mem_append.mpr (Or.inr (List.mem_singleton.mpr rfl)))
          · exact Or.inl ((List.mem_erase_of_ne hxc).mpr h)
        · exact Or.inr (List.mem_append.mpr (Or.inl h))
    · rw [if_neg hc]
      rcases List.mem_cons.mp hxl with rfl | hxrest
      · rcases hdisj with h | h
        · exact absurd h hc
        · exact accumBackwards_plan_mono rest _ _ h
      · exact ih _ x hxrest hdisj

/-- Folding the backward accumulation over a list of starting nodes only
grows the plan. -/
theorem foldChildren_plan_mono (g : ChangeGraph) :
    ∀ (cs : List Key) (st : List (Key × Bool) × List Key) (x : Key × Bool),
      x ∈ st.1 →
        x ∈ (cs.foldl (fun s node => accumBackwards s (backwards_plan g node)) st).1 := by
  intro cs
  induction cs with
  | nil =>
    intro st x hx
    exact hx
  | cons d rest ih =>
    intro st x hx
    simp only [List.foldl_cons]
    exact ih _ x (accumBackwards_plan_mono _ st x hx)

/-- Every entry produced by folding the backward accumulation over a list
of starting nodes is a backward entry for an applied key of some starting
node's backwards plan. -/
theorem foldChildren_sound (g : ChangeGraph) :
    ∀ (cs : List Key) (st : List (Key × Bool) × List Key) (x : Key × Bool),
      x ∈ (cs.foldl (fun s node => accumBackwards s (backwards_plan g node)) st).1 →
        x ∈ st.1 ∨ ∃ c ∈ cs, x.2 = true ∧ x.1 ∈ backwards_plan g c ∧ x.1 ∈ st.2 := by
  intro cs
  induction cs with
  | nil =>
    intro st x hx
    exact Or.inl hx
  | cons c rest ih =>
    intro st x hx
    simp only [List.foldl_cons] at hx
    rcases ih _ x hx with h | ⟨c2, hc2, h1, h2, h3⟩
    · rcases accumBackwards_sound _ st x h with h4 | ⟨h5, h6, h7⟩
      · exact Or.inl h4
      · exact Or.inr ⟨c, List.mem_cons_self _ _, h5, h6, h7⟩
    · exact Or.inr ⟨c2, List.mem_cons_of_mem _ hc2, h1, h2,
        accumBackwards_applied_subset _ st _ h3⟩

/-- Every starting node that is in the working applied set gets a backward
entry in the folded plan. -/
theorem foldChildren_progress (g : ChangeGraph) :
    ∀ (cs : List Key) (st : List (Key × Bool) × List Key) (c : Key),
      c ∈ cs → (c ∈ st.2 ∨ (c, true) ∈ st.1) →
        (c, true) ∈ (cs.foldl (fun s node => accumBackwards s (backwards_plan g node)) st).1 := by
  intro cs
  induction cs with
  | nil =>
    intro st c hc _
    cases hc
  | cons d rest ih =>
    intro st c hc hdisj
    simp only [List.foldl_cons]
    rcases List.mem_cons.mp hc with rfl | hcrest
    · exact foldChildren_plan_mono g rest _ _
        (accumBackwards_progress _ st c (self_mem_backwards_plan g c) hdisj)
    · apply ih _ c hcrest
      rcases hdisj with h | h
      · exact accumBackwards_applied_preserved _ st c h
      · exact Or.inr (accumBackwards_plan_mono _ st _ h)

/-- C2: for an already-applied concrete target, `change_plan` produces
only backward entries, each an applied key drawn from the backwards plan
of one of the target's immediate same-app children; the target itself is
never in the plan (given a topological rank witnessing acyclicity); and
every applied same-app child of the target is rolled back. -/
theorem applied_target_rolls_back_only_same_app_children (g : ChangeGraph)
    (rank : Key → Nat) (hrank : ∀ e ∈ g.edges, rank e.2 < rank e.1)
    (applied0 : List Key) (app name : String)
    (ht : (app, name) ∈ applied0) :
    (∀ e ∈ change_plan g applied0 [(app, some name)] false, e.2 = true) ∧
    (∀ e ∈ change_plan g applied0 [(app, some name)] false,
      e.1 ∈ applied0 ∧ ∃ c, (c, (app, name)) ∈ g.edges ∧ c.1 = app ∧
        e.1 ∈ backwards_plan g c) ∧
    (∀ e ∈ change_plan g applied0 [(app, some name)] false, e.1 ≠ (app, name)) ∧
    (∀ c, (c, (app, name)) ∈ g.edges → c.1 = app → c ∈ applied0 →
      (c, true) ∈ change_plan g applied0 [(app, some name)] false) := by
  have hplan : change_plan g applied0 [(app, some name)] false =
      ((sortKeys ((childrenOf g (app, name)).filter (fun n => n.1 == app))).foldl
        (fun s node => accumBackwards s (backwards_plan g node)) ([], applied0)).1 := by
    simp only [change_plan, List.foldl_cons, List.foldl_nil, planTarget,
      Bool.false_eq_true, if_false]
    rw [if_pos ht]
  have hcs : ∀ c : Key,
      c ∈ sortKeys ((childrenOf g (app, name)).filter (fun n => n.1 == app)) ↔
        (c, (app, name)) ∈ g.edges ∧ c.1 = app := by
    intro c
    rw [mem_sortKeys, List.mem_filter, mem_childrenOf, beq_iff_eq]
  rw [hplan]
  refine ⟨fun e he => ?_, fun e he => ?_, fun e he => ?_, fun c hce hc1 hca => ?_⟩
  · rcases foldChildren_sound g _ _ e he with h | ⟨c, _, h1, _, _⟩
    · cases h
    · exact h1
  · rcases foldChildren_sound g _ _ e he with h | ⟨c, hc, _, h2, h3⟩
    · cases h
    · exact ⟨h3, c, ((hcs c).mp hc).1, ((hcs c).mp hc).2, h2⟩
  · rcases foldChildren_sound g _ _ e he with h | ⟨c, hc, _, h2, _⟩
    · cases h
    · intro hcontra
      have hub := backwardsPlanAux_rank g rank hrank _ c [] e.1 h2
      rcases hub with h4 | h4
      · cases h4
      · rw [hcontra] at h4
        have hlt := hrank (c, (app, name)) ((hcs c).mp hc).1
        exact absurd (lt_of_lt_of_le hlt h4) (lt_irrefl _)
  · exact foldChildren_progress g _ _ c ((hcs c).mpr ⟨hce, hc1⟩) (Or.inl hca)

/-- Witness for C2: in the sample graph, unapplying applied `x.0001` whose
applied same-app child is `x.0002` rolls back the child but never the
target. -/
theorem applied_target_rolls_back_only_same_app_children_witness :
    (∀ e ∈ change_plan gSample [keyB, keyC] [("x", some "0001")] false, e.2 = true) ∧
    (∀ e ∈ change_plan gSample [keyB, keyC] [("x", some "0001")] false,
      e.1 ∈ [keyB, keyC] ∧ ∃ c, (c, ("x", "0001")) ∈ gSample.edges ∧ c.1 = "x" ∧
        e.1 ∈ backwards_plan gSample c) ∧
    (∀ e ∈ change_plan gSample [keyB, keyC] [("x", some "0001")] false,
      e.1 ≠ ("x", "0001")) ∧
    (∀ c, (c, ("x", "0001")) ∈ gSample.edges → c.1 = "x" → c ∈ [keyB, keyC] →
      (c, true) ∈ change_plan gSample [keyB, keyC] [("x", some "0001")] false) :=
  applied_target_rolls_back_only_same_app_children gSample rankSample (by decide)
    [keyB, keyC] "x" "0001" (by decide)

/-- An app occurs among the first components of a key list exactly when
the filter by that app is non-empty. -/
theorem mem_map_fst_iff_count_pos (app : String) :
    ∀ l : List Key,
      app ∈ l.map Prod.fst ↔ 1 ≤ (l.filter (fun k => k.1 == app)).length := by
  intro l
  induction l with
  | nil => simp
  | cons hd rest ih =>
    obtain ⟨a, n⟩ := hd
    by_cases h : a = app
    · subst h
      simp
    · simp only [List.map_cons, List.mem_cons, List.filter_cons]
      rw [if_neg (by simp [h])]
      simp only [h, ih, eq_comm, false_or]
      constructor
      · exact fun hx => hx.elim (fun hh => absurd hh.symm h) id
      · exact fun hx => Or.inr hx

/-- `addSeen` makes the lookup of the added app defined and leaves other
apps' definedness unchanged. -/
theorem lookupApp_addSeen_isSome :
    ∀ (seen : List (String × List String)) (a n app : String),
      (lookupApp (addSeen seen a n) app).isSome ↔
        (lookupApp seen app).isSome ∨ app = a := by
  intro seen
  induction seen with
  | nil =>
    intro a n app
    by_cases h : a = app
    · simp [addSeen, lookupApp, h]
    · have h2 : ¬app = a := fun hh => h hh.symm
      simp [addSeen, lookupApp, h, h2]
  | cons p rest ih =>
    obtain ⟨b, ns⟩ := p
    intro a n app
    by_cases hba : b = a
    · subst hba
      by_cases hb : b = app
      · subst hb
        simp [addSeen, lookupApp]
      · have hb2 : ¬app = b := fun hh => hb hh.symm
        simp [addSeen, lookupApp, hb, hb2]
    · by_cases hb : b = app
      · subst hb
        simp [addSeen, lookupApp, hba]
      · simp [addSeen, lookupApp, hba, hb, ih]

/-- Membership in the seen-set after `addSeen`: the added name for the
added app, everything else unchanged. -/
theorem lookupApp_addSeen_mem :
    ∀ (seen : List (String × List String)) (a n app n2 : String),
      n2 ∈ (lookupApp (addSeen seen a n) app).getD [] ↔
        n2 ∈ (lookupApp seen app).getD [] ∨ (app = a ∧ n2 = n) := by
  intro seen
  induction seen with
  | nil =>
    intro a n app n2
    by_cases h : a = app
    · simp [addSeen, lookupApp, h, eq_comm]
    · have h2 : ¬app = a := fun hh => h hh.symm
      simp [addSeen, lookupApp, h, h2]
  | cons p rest ih =>
    obtain ⟨b, ns⟩ := p
    intro a n app n2
    by_cases hba : b = a
    · subst hba
      by_cases hb : b = app
      · subst hb
        by_cases hn : n ∈ ns
        · simp only [addSeen, lookupApp, beq_self_eq_true, if_true, if_pos hn,
            Option.getD_some]
          constructor
          · exact fun h => Or.inl h
          · rintro (h | ⟨-, rfl⟩)
            · exact h
            · exact hn
        · simp [addSeen, lookupApp, hn]
      · have hb2 : ¬app = b := fun hh => hb hh.symm
        simp [addSeen, lookupApp, hb, hb2]
    · by_cases hb : b = app
      · subst hb
        simp [addSeen, lookupApp, hba]
      · simp [addSeen, lookupApp, hba, hb, ih]

/-- After the conflict-detection loop, the seen set of an app holds
exactly the initial names plus the app's names from the walked list. -/
theorem detectConflictsAux_seen_mem :
    ∀ (l : List Key) (seen : List (String × List String)) (confl : List String)
      (app n : String),
      n ∈ (lookupApp (detectConflictsAux l seen confl).1 app).getD [] ↔
        n ∈ (lookupApp seen app).getD [] ∨ (app, n) ∈ l := by
  intro l
  induction l with
  | nil =>
    intro seen confl app n
    simp [detectConflictsAux]
  | cons hd rest ih =>
    obtain ⟨a, m⟩ := hd
    intro seen confl app n
    simp only [detectConflictsAux]
    rw [ih, lookupApp_addSeen_mem]
    simp only [List.mem_cons, Prod.mk.injEq]
    tauto

/-- After the conflict-detection loop, an app is recorded as conflicting
exactly when it already was, or was initially seen and occurs in the
walked list, or occurs at least twice in the walked list. -/
theorem detectConflictsAux_confl_mem :
    ∀ (l : List Key) (seen : List (String × List String)) (confl : List String)
      (app : String),
      app ∈ (detectConflictsAux l seen confl).2 ↔
        app ∈ confl ∨ ((lookupApp seen app).isSome ∧ app ∈ l.map Prod.fst) ∨
          2 ≤ (l.filter (fun k => k.1 == app)).length := by
  intro l
  induction l with
  | nil =>
    intro seen confl app
    simp [detectConflictsAux]
  | cons hd rest ih =>
    obtain ⟨a, m⟩ := hd
    intro seen confl app
    simp only [detectConflictsAux]
    rw [ih, lookupApp_addSeen_isSome]
    by_cases haa : app = a
    · subst haa
      by_cases hS : (lookupApp seen app).isSome = true
      · have hins : app ∈ (if app ∈ confl then confl else confl ++ [app]) := by
          by_cases hC : app ∈ confl
          · rw [if_pos hC]
            exact hC
          · rw [if_neg hC]
            exact List.mem_append.mpr (Or.inr (List.mem_singleton.mpr rfl))
        simp [hS, hins]
      · rw [if_neg hS]
        rw [mem_map_fst_iff_count_pos]
        simp only [List.filter_cons, beq_self_eq_true, if_true, List.length_cons,
          List.map_cons, List.mem_cons, hS, false_and, false_or, true_or, and_true]
        constructor
        · rintro (h | h | h)
          · exact Or.inl h
          · exact Or.inr (by omega)
          · exact Or.inr (by omega)
        · rintro (h | h)
          · exact Or.inl h
          · rcases h with h | h
            · cases h
            · exact Or.inr (Or.inl ⟨Or.inr trivial, by omega⟩)
    · have hc2 : app ∈ (if (lookupApp seen a).isSome = true then
          (if a ∈ confl then confl else confl ++ [a]) else confl) ↔ app ∈ confl := by
        by_cases hS2 : (lookupApp seen a).isSome = true
        · rw [if_pos hS2]
          by_cases hC : a ∈ confl
          · rw [if_pos hC]
          · rw [if_neg hC]
            simp [List.mem_append, haa]
        · rw [if_neg hS2]
      rw [hc2]
      have hfa : ((a, m).1 == app) = false := by
        simp
        exact fun hh => haa hh.symm
      simp only [List.filter_cons, hfa, List.map_cons, List.mem_cons]
      simp [haa]

/-- C7: `detect_conflicts` reports exactly the app labels with more than
one leaf node, each mapped to the full set of that app's leaf names; the
result is empty if and only if every app has at most one leaf node. -/
theorem detect_conflicts_characterization (g : ChangeGraph)
    (_hnd : g.nodes.Nodup) :
    (∀ app, app ∈ (detect_conflicts g).map Prod.fst ↔
        2 ≤ ((leaf_nodes g).filter (fun k => k.1 == app)).length) ∧
    (∀ app ns, (app, ns) ∈ detect_conflicts g →
        ∀ n, n ∈ ns ↔ (app, n) ∈ leaf_nodes g) ∧
    (detect_conflicts g = [] ↔
        ∀ app, ((leaf_nodes g).filter (fun k => k.1 == app)).length ≤ 1) := by
  have hconfl : ∀ app, app ∈ (detectConflictsAux (leaf_nodes g) [] []).2 ↔
      2 ≤ ((leaf_nodes g).filter (fun k => k.1 == app)).length := by
    intro app
    rw [detectConflictsAux_confl_mem]
    simp [lookupApp]
  have hseen : ∀ app n,
      n ∈ (lookupApp (detectConflictsAux (leaf_nodes g) [] []).1 app).getD [] ↔
        (app, n) ∈ leaf_nodes g := by
    intro app n
    rw [detectConflictsAux_seen_mem]
    simp [lookupApp]
  refine ⟨fun app => ?_, fun app ns hmem n => ?_, ?_⟩
  · rw [← hconfl app]
    simp [detect_conflicts, List.mem_map]
  · simp only [detect_conflicts, List.mem_map] at hmem
    obtain ⟨a, ha, heq⟩ := hmem
    injection heq with h1 h2
    subst h1
    rw [← h2]
    exact hseen a n
  · constructor
    · intro h app
      have h2 : app ∉ (detectConflictsAux (leaf_nodes g) [] []).2 := by
        intro hx
        have hin : (app, (lookupApp (detectConflictsAux (leaf_nodes g) [] []).1 app).getD [])
            ∈ detect_conflicts g := by
          simp only [detect_conflicts, List.mem_map]
          exact ⟨app, hx, rfl⟩
        rw [h] at hin
        cases hin
      have h3 : ¬2 ≤ ((leaf_nodes g).filter (fun k => k.1 == app)).length :=
        fun hc => h2 ((hconfl app).mpr hc)
      omega
    · intro h
      simp only [detect_conflicts]
      rw [List.map_eq_nil_iff, List.eq_nil_iff_forall_not_mem]
      intro app hx
      have hc := (hconfl app).mp hx
      have := h app
      omega

/-- Witness for C7: the sample graph with two leaves in app "x" and one
leaf in app "y". -/
theorem detect_conflicts_characterization_witness :
    (∀ app, app ∈ (detect_conflicts gConflict).map Prod.fst ↔
        2 ≤ ((leaf_nodes gConflict).filter (fun k => k.1 == app)).length) ∧
    (∀ app ns, (app, ns) ∈ detect_conflicts gConflict →
        ∀ n, n ∈ ns ↔ (app, n) ∈ leaf_nodes gConflict) ∧
    (detect_conflicts gConflict = [] ↔
        ∀ app, ((leaf_nodes gConflict).filter (fun k => k.1 == app)).length ≤ 1) :=
  detect_conflicts_characterization gConflict (by decide)

end Changelog
